import Mathlib

/- Verification of the colcon-sanitizer-reports log parser.

The Python sources are embedded shallowly: every regular expression of the
source is translated to an executable function on `List Char` with the exact
match-time semantics (leftmost match, greedy or lazy repetition, ordered
alternation) of Python's `re` module, and the stateful parser is modelled by
explicit state passing, with `Except` marking the `AssertionError` or
`AttributeError` escape paths of the source. -/

namespace CSR

abbrev Line := List Char

/-- ASCII whitespace, as matched by the regex class \s and stripped by
Python's str.rstrip for ASCII input. -/
def isPySpace (c : Char) : Bool :=
  c = ' ' || c = '\t' || c = '\n' || c = '\r' || c = '\x0b' || c = '\x0c'

/-- Python's str.rstrip: remove trailing whitespace. -/
def rstrip (l : Line) : Line :=
  (l.reverse.dropWhile isPySpace).reverse

/-- Match a literal at the front of a line; on success return the remainder.
This models re.match against the escaped literal. -/
def dropLit : Line → Line → Option Line
  | [], l => some l
  | _ :: _, [] => none
  | p :: ps, c :: cs => if c = p then dropLit ps cs else none

/-- Whether pat occurs as a contiguous substring, modelling an unanchored
`.*pat` search inside a match. -/
def containsSub (pat : Line) : Line → Bool
  | [] => pat.isEmpty
  | c :: t => (dropLit pat (c :: t)).isSome || containsSub pat t

/-- Characters matched by the regex class [\da-f] of the source (note:
lowercase hex only). -/
def isHexLower (c : Char) : Bool :=
  c.isDigit || ('a' ≤ c && c ≤ 'f')

/-- When the line starts with a maximal address token `0x[\da-f]+`, return
the remainder after it. -/
def hexTokSplit : Line → Option Line
  | c1 :: c2 :: r =>
    if c1 = '0' && c2 = 'x' then
      if (r.takeWhile isHexLower).isEmpty then none
      else some (r.dropWhile isHexLower)
    else none
  | _ => none

def headNotHex : Line → Bool
  | [] => true
  | c :: _ => !isHexLower c

/- ------------------------------------------------------------------
sanitizer_log_parser.py: _FIND_SECTION_START_LINE_REGEX
`^(?P<prefix>.*?)(==\d+==|)(WARNING|ERROR):.*Sanitizer:.*$`
------------------------------------------------------------------ -/

/-- Tail of the section start pattern after the optional pid tag:
`(WARNING|ERROR):.*Sanitizer:.*$`. -/
def warnErrTail (l : Line) : Bool :=
  (match dropLit "WARNING:".data l with
   | some r => containsSub "Sanitizer:".data r
   | none => false) ||
  (match dropLit "ERROR:".data l with
   | some r => containsSub "Sanitizer:".data r
   | none => false)

/-- The optional `==\d+==` pid decoration (greedy digit run then `==`). -/
def pidTag (l : Line) : Option Line :=
  match dropLit "==".data l with
  | some r =>
    if (r.takeWhile Char.isDigit).isEmpty then none
    else dropLit "==".data (r.dropWhile Char.isDigit)
  | none => none

/-- Whether the section start pattern matches at this position (the ordered
alternation `(==\d+==|)` tried with the tag first, then empty). -/
def startTail (l : Line) : Bool :=
  (match pidTag l with
   | some r => warnErrTail r
   | none => false) || warnErrTail l

/-- Lazy scan for the `.*?` group: the shortest leading segment whose
remainder matches the rest of the start pattern is the captured value. -/
def findStartPre : Line → Line → Option Line
  | acc, [] => if startTail [] then some acc.reverse else none
  | acc, c :: t =>
    if startTail (c :: t) then some acc.reverse else findStartPre (c :: acc) t

/-- The logger-assigned leading segment captured by the start regex, when the
line is a section start line. -/
def findSectionStartPre (l : Line) : Option Line :=
  findStartPre [] l

/- ------------------------------------------------------------------
sanitizer_log_parser.py: _FIND_SECTION_END_LINE_REGEX
`^(?P<prefix>.*?)(SUMMARY: .*Sanitizer: .*)$`, used only as a boolean test.
------------------------------------------------------------------ -/

def sectionEndMatch : Line → Bool
  | [] => false
  | c :: t =>
    (match dropLit "SUMMARY: ".data (c :: t) with
     | some r => containsSub "Sanitizer: ".data r
     | none => false) || sectionEndMatch t

/- ------------------------------------------------------------------
_sanitizer_section.py: _FIND_ERROR_NAME_REGEX
`^.*Sanitizer: (?P<error_name>.+?)( \(| 0x[\da-f]+|\s*$)`
------------------------------------------------------------------ -/

/-- The ordered terminator alternation ` \(| 0x[\da-f]+|\s*$` tested at one
position of the remainder of the header line. -/
def errTerm (t : Line) : Bool :=
  (dropLit " (".data t).isSome ||
  (match dropLit " 0x".data t with
   | some r =>
     match r with
     | d :: _ => isHexLower d
     | [] => false
   | none => false) ||
  t.all isPySpace

/-- Lazy expansion of the nonempty group `.+?`: consume one character at a
time and stop at the first position where a terminator matches. -/
def findNameAux : Line → Line → Option Line
  | _, [] => none
  | acc, c :: t =>
    if errTerm t then some (c :: acc).reverse else findNameAux (c :: acc) t

def findNameIn (r : Line) : Option Line :=
  findNameAux [] r

/-- Error name of a section header line. The greedy `^.*` makes the regex use
the last occurrence of the marker for which the rest of the pattern can
still match, so later positions are preferred. -/
def findErrorName : Line → Option Line
  | [] => none
  | c :: t =>
    match findErrorName t with
    | some n => some n
    | none =>
      match dropLit "Sanitizer: ".data (c :: t) with
      | some r => findNameIn r
      | none => none

/-- Modelled from the spec: the claimed cutting rule for the error name,
worded as "ending at the first of: an open parenthesis, a bare hexadecimal
address token, or the end of the line". Stated for comparison with the
behaviour of the source regex, whose first two terminators additionally
require a preceding space. -/
def specNameCut : Line → Line
  | [] => []
  | c :: t =>
    if c = '(' then []
    else if (hexTokSplit (c :: t)).isSome then []
    else c :: specNameCut t

/- ------------------------------------------------------------------
_sanitizer_section_part.py: _FIND_STACK_TRACE_LINE_REGEX `^\s*#\d+\s+.*$`
------------------------------------------------------------------ -/

def matchStackTraceLine (l : Line) : Bool :=
  match l.dropWhile isPySpace with
  | '#' :: r =>
    !(r.takeWhile Char.isDigit).isEmpty &&
    (match r.dropWhile Char.isDigit with
     | c :: _ => isPySpace c
     | [] => false)
  | _ => false

/- ------------------------------------------------------------------
_sanitizer_section_part_stack_trace.py: _FIND_KEY_REGEX
`^\s*#\d+ (0x[\da-f]+ in|)\s*(?P<key>.*/ros2.*)\s*$`
and _FIND_KEY_SUB_REGEX `0x[\da-f]+` substituted by '0xX'.
------------------------------------------------------------------ -/

/-- The first branch of the group `(0x[\da-f]+ in|)`: a greedy hex run
followed by the literal ` in`. -/
def hexIn (t : Line) : Option Line :=
  match dropLit "0x".data t with
  | some r =>
    if (r.takeWhile isHexLower).isEmpty then none
    else dropLit " in".data (r.dropWhile isHexLower)
  | none => none

/-- Remainder of the key pattern `\s*(?P<key>.*/ros2.*)\s*$`: the greedy key
group runs to the end of the line, so the captured key is the remainder after
the greedy whitespace run, provided it contains the marker path. -/
def keyTail (t : Line) : Option Line :=
  let t2 := t.dropWhile isPySpace
  if containsSub "/ros2".data t2 then some t2 else none

/-- The key pattern after the frame index `#\d+` and its single space,
with the backtracking between the two branches of the optional group. -/
def keyAfterIdx : Line → Option Line
  | [] => none
  | c :: r2 =>
    if c = ' ' then
      match hexIn r2 with
      | some r3 =>
        (match keyTail r3 with
         | some k => some k
         | none => keyTail r2)
      | none => keyTail r2
    else none

/-- re.match of _FIND_KEY_REGEX: captured (unmasked) key of one line. -/
def matchKeyLine (l : Line) : Option Line :=
  match l.dropWhile isPySpace with
  | [] => none
  | c :: r =>
    if c = '#' then
      if (r.takeWhile Char.isDigit).isEmpty then none
      else keyAfterIdx (r.dropWhile Char.isDigit)
    else none

theorem dropWhileLenLe (p : Char → Bool) (l : List Char) :
    (l.dropWhile p).length ≤ l.length := by
  induction l with
  | nil => simp [List.dropWhile]
  | cons c t ih =>
    simp only [List.dropWhile]
    split
    · exact le_trans ih (Nat.le_succ _)
    · exact le_refl _

/-- Whether the text after a '0' completes a `0x[\da-f]+` match: an 'x'
followed by at least one hex character. -/
def tokHead : Line → Bool
  | x :: d :: _ => x = 'x' && isHexLower d
  | _ => false

/-- Fueled worker for the re.sub scan; the fuel is always at least the
length of the line, so the zero case is never reached. -/
def maskHexF : Nat → Line → Line
  | 0, l => l
  | _ + 1, [] => []
  | f + 1, c :: t =>
    if c = '0' && tokHead t then
      '0' :: 'x' :: 'X' :: maskHexF f ((t.drop 1).dropWhile isHexLower)
    else c :: maskHexF f t

/-- re.sub of `0x[\da-f]+` by '0xX': left-to-right scan, each match taken
greedily (the whole maximal hex run is consumed), continuing after the
match end. -/
def maskHex (l : Line) : Line :=
  maskHexF l.length l

theorem maskHexF_nil (f : Nat) : maskHexF f [] = [] := by
  cases f <;> rfl

theorem maskHexF_fuel : ∀ (n f f2 : Nat) (l : Line), l.length ≤ n → l.length ≤ f →
    l.length ≤ f2 → maskHexF f l = maskHexF f2 l := by
  intro n
  induction n with
  | zero =>
    intro f f2 l hn _ _
    have hl : l = [] := List.length_eq_zero.1 (Nat.le_zero.1 hn)
    subst hl
    rw [maskHexF_nil, maskHexF_nil]
  | succ n ih =>
    intro f f2 l hn hf hf2
    cases l with
    | nil => rw [maskHexF_nil, maskHexF_nil]
    | cons c t =>
      simp only [List.length_cons] at hn hf hf2
      cases f with
      | zero => omega
      | succ a =>
        cases f2 with
        | zero => omega
        | succ b =>
          simp only [maskHexF]
          by_cases h : (c = '0' && tokHead t) = true
          · rw [if_pos h, if_pos h]
            have hlen : ((t.drop 1).dropWhile isHexLower).length ≤ t.length := by
              have h1 := dropWhileLenLe isHexLower (t.drop 1)
              have h2 := List.length_drop 1 t
              omega
            exact congrArg (fun x => '0' :: 'x' :: 'X' :: x)
              (ih a b ((t.drop 1).dropWhile isHexLower) (by omega) (by omega) (by omega))
          · rw [if_neg h, if_neg h]
            exact congrArg (fun x => c :: x) (ih a b t (by omega) (by omega) (by omega))

/-- The single-step unfolding of the masking scan. -/
theorem maskHex_cons (c : Char) (t : Line) :
    maskHex (c :: t) =
      if c = '0' && tokHead t then
        '0' :: 'x' :: 'X' :: maskHex ((t.drop 1).dropWhile isHexLower)
      else c :: maskHex t := by
  unfold maskHex
  simp only [List.length_cons, maskHexF]
  by_cases h : (c = '0' && tokHead t) = true
  · rw [if_pos h, if_pos h]
    have hlen : ((t.drop 1).dropWhile isHexLower).length ≤ t.length := by
      have h1 := dropWhileLenLe isHexLower (t.drop 1)
      have h2 := List.length_drop 1 t
      omega
    exact congrArg (fun x => '0' :: 'x' :: 'X' :: x)
      (maskHexF_fuel t.length t.length _ _ hlen hlen (le_refl _))
  · rw [if_neg h, if_neg h]

/-- SanitizerSectionPartStackTrace.__init__: the key is extracted from the
first line matching the key pattern, with addresses masked; none models the
AssertionError when no line yields a key. -/
def findTraceKey : List Line → Option Line
  | [] => none
  | l :: t =>
    match matchKeyLine l with
    | some k => some (maskHex k)
    | none => findTraceKey t

/- ------------------------------------------------------------------
_sanitizer_section_part.py: the begin-pattern table
_FIND_RELEVANT_STACK_TRACE_BEGIN_REGEXES_BY_ERROR_NAME
------------------------------------------------------------------ -/

/-- The shared tail ` of size \d+ at 0x[\da-f]+ .*$` of the data race
begin patterns. -/
def accessTail (l : Line) : Bool :=
  match dropLit " of size ".data l with
  | some r =>
    !(r.takeWhile Char.isDigit).isEmpty &&
    (match dropLit " at 0x".data (r.dropWhile Char.isDigit) with
     | some r2 =>
       !(r2.takeWhile isHexLower).isEmpty &&
       (match r2.dropWhile isHexLower with
        | ' ' :: _ => true
        | _ => false)
     | none => false)
  | none => false

/-- `^\s+(Read|Write) of size \d+ at 0x[\da-f]+ .*$` -/
def matchRaceFirst (l : Line) : Bool :=
  match l with
  | [] => false
  | c :: _ =>
    isPySpace c &&
    (let r := l.dropWhile isPySpace
     (match dropLit "Read".data r with
      | some r2 => accessTail r2
      | none => false) ||
     (match dropLit "Write".data r with
      | some r2 => accessTail r2
      | none => false))

/-- `^\s+Previous (read|write) of size \d+ at 0x[\da-f]+ .*$` -/
def matchRaceSecond (l : Line) : Bool :=
  match l with
  | [] => false
  | c :: _ =>
    isPySpace c &&
    (match dropLit "Previous ".data (l.dropWhile isPySpace) with
     | some r =>
       (match dropLit "read".data r with
        | some r2 => accessTail r2
        | none => false) ||
       (match dropLit "write".data r with
        | some r2 => accessTail r2
        | none => false)
     | none => false)

/-- `^Direct leak of \d+ byte\(s\) in \d+ object\(s\) allocated from:$` -/
def matchDirectLeak (l : Line) : Bool :=
  match dropLit "Direct leak of ".data l with
  | some r =>
    !(r.takeWhile Char.isDigit).isEmpty &&
    (match dropLit " byte(s) in ".data (r.dropWhile Char.isDigit) with
     | some r2 =>
       !(r2.takeWhile Char.isDigit).isEmpty &&
       (r2.dropWhile Char.isDigit = " object(s) allocated from:".data)
     | none => false)
  | none => false

/-- `^\s+Mutex M\d+ acquired here while holding mutex M\d+ in .*$` -/
def matchLockOrder (l : Line) : Bool :=
  match l with
  | [] => false
  | c :: _ =>
    isPySpace c &&
    (match dropLit "Mutex M".data (l.dropWhile isPySpace) with
     | some r =>
       !(r.takeWhile Char.isDigit).isEmpty &&
       (match dropLit " acquired here while holding mutex M".data
           (r.dropWhile Char.isDigit) with
        | some r2 =>
          !(r2.takeWhile Char.isDigit).isEmpty &&
          (dropLit " in ".data (r2.dropWhile Char.isDigit)).isSome
        | none => false)
     | none => false)

/-- The ChainMap: known error names map to their ordered begin-pattern
tuples, every other name defaults to the single wildcard `^.*$`. -/
def beginPats (errorName : Line) : List (Line → Bool) :=
  if errorName = "data race".data then [matchRaceFirst, matchRaceSecond]
  else if errorName = "detected memory leaks".data then [matchDirectLeak]
  else if errorName = "lock-order-inversion".data then [matchLockOrder, matchLockOrder]
  else [fun _ => true]

/- ------------------------------------------------------------------
_sanitizer_section_part.py: SanitizerSectionPart.__init__
------------------------------------------------------------------ -/

/-- Positional indexing into the begin-pattern tuple. -/
def nthPat : List (Line → Bool) → Nat → Option (Line → Bool)
  | [], _ => none
  | p :: _, 0 => some p
  | _ :: ps, n + 1 => nthPat ps n

/-- The gathering loop of SanitizerSectionPart.__init__. The first component
of the result lists every line group handed to the stack trace constructor,
in order; the second is the tuple of extracted keys, or none when a
constructor hit its assertion (which aborts the whole part). -/
def partScan (pats : List (Line → Bool)) :
    List Line → Option (List Line) → List Line → List (List Line) × Option (List Line)
  | [], gather, acc =>
    (match gather with
     | some g =>
       if g.isEmpty then ([], some acc)
       else
         match findTraceKey g with
         | some k => ([g], some (acc ++ [k]))
         | none => ([g], none)
     | none => ([], some acc))
  | line :: rest, gather, acc =>
    match gather with
    | some g =>
      if matchStackTraceLine line then partScan pats rest (some (g ++ [line])) acc
      else
        match findTraceKey g with
        | none => ([g], none)
        | some k =>
          if acc.length + 1 = pats.length then ([g], some (acc ++ [k]))
          else
            match nthPat pats (acc.length + 1) with
            | some p =>
              (g :: (partScan pats rest (if p line then some [] else none) (acc ++ [k])).1,
               (partScan pats rest (if p line then some [] else none) (acc ++ [k])).2)
            | none => ([g], none)
    | none =>
      match nthPat pats acc.length with
      | some p => partScan pats rest (if p line then some [] else none) acc
      | none => ([], none)

def mkPartScan (errorName : Line) (lines : List Line) :
    List (List Line) × Option (List Line) :=
  partScan (beginPats errorName) lines none []

/-- The relevant stack trace keys of a part, or none on an assertion. -/
def mkPartTraces (errorName : Line) (lines : List Line) : Option (List Line) :=
  (mkPartScan errorName lines).2

/-- The line groups the part hands to the stack trace constructor. -/
def mkPartPassed (errorName : Line) (lines : List Line) : List (List Line) :=
  (mkPartScan errorName lines).1

/- ------------------------------------------------------------------
_sanitizer_section.py: SanitizerSection.__init__
------------------------------------------------------------------ -/

/-- `^\S.*$`: a section part begins at a non-indented, nonempty line. -/
def partBegin : Line → Bool
  | [] => false
  | c :: _ => !isPySpace c

def splitPartsAux : List Line → List Line → List (List Line)
  | acc, [] => [acc]
  | acc, line :: rest =>
    if partBegin line && !acc.isEmpty then acc :: splitPartsAux [line] rest
    else splitPartsAux (acc ++ [line]) rest

/-- Division of section lines into parts, including the trailing flush of
the loop's else clause. -/
def splitParts (lines : List Line) : List (List Line) :=
  splitPartsAux [] lines

/-- Keys contributed by the parts, built eagerly in order; none as soon as
one part's construction raises. -/
def sectionKeys (errorName : Line) : List (List Line) → Option (List Line)
  | [] => some []
  | p :: ps =>
    match mkPartTraces errorName p with
    | none => none
    | some ks =>
      match sectionKeys errorName ps with
      | none => none
      | some rest => some (ks ++ rest)

/-- SanitizerSection.__init__ on the gathered lines: the error name from the
first line and all relevant keys; none models the AttributeError of a
header without error name or an assertion inside a part. -/
def mkSection (lines : List Line) : Option (Line × List Line) :=
  match lines with
  | [] => none
  | l0 :: _ =>
    match findErrorName l0 with
    | none => none
    | some name =>
      match sectionKeys name (splitParts lines) with
      | none => none
      | some ks => some (name, ks)

/- ------------------------------------------------------------------
sanitizer_log_parser.py: SanitizerLogParser
------------------------------------------------------------------ -/

abbrev Pending := List (Line × List Line)
abbrev NameKey := Line × Line
abbrev OutKey := Option Line × Line × Line

/-- Registration of a new pending section keyed by its captured leading
segment: Python's re.compile cache makes an equal pattern the same dict key,
so an existing entry is reset in place, otherwise a new one is appended. -/
def registerPending : Pending → Line → Pending
  | [], pre => [(pre, [])]
  | (q, ls) :: rest, pre =>
    if q = pre then (q, []) :: rest else (q, ls) :: registerPending rest pre

/-- The routing loop of add_line: the first pending section whose leading
segment matches absorbs the line (and the loop breaks); a SUMMARY line
finalizes that section. An error carries the parser state as mutated before
the exception escaped. -/
def scanPending : Pending → Line → Except Pending (List NameKey × Pending)
  | [], _ => .ok ([], [])
  | (q, ls) :: rest, line =>
    match dropLit q line with
    | some d =>
      if sectionEndMatch line then
        match mkSection (ls ++ [d]) with
        | none => .error ((q, ls ++ [d]) :: rest)
        | some nk => .ok (nk.2.map (fun k => (nk.1, k)), rest)
      else .ok ([], (q, ls ++ [d]) :: rest)
    | none =>
      match scanPending rest line with
      | .error rest2 => .error ((q, ls) :: rest2)
      | .ok (ks, rest2) => .ok (ks, (q, ls) :: rest2)

/-- The active pending set against which a stripped line is routed: the
set after the section start registration step of add_line. -/
def registeredPending (pend : Pending) (line : Line) : Pending :=
  match findSectionStartPre line with
  | some pre => registerPending pend pre
  | none => pend

/-- One add_line call, viewed on the pending set alone: the emitted
(error name, key) pairs and the new pending set. -/
def stepEmit (pend : Pending) (raw : Line) : Except Pending (List NameKey × Pending) :=
  scanPending (registeredPending pend (rstrip raw)) (rstrip raw)

def runEmit : Pending → List Line → Except Pending (List NameKey × Pending)
  | pend, [] => .ok ([], pend)
  | pend, l :: ls =>
    match stepEmit pend l with
    | .error p => .error p
    | .ok (ks, pend2) =>
      match runEmit pend2 ls with
      | .error p => .error p
      | .ok (ks2, pend3) => .ok (ks ++ ks2, pend3)

structure ParserState where
  counts : List (OutKey × Nat)
  pkg : Option Line
  pending : Pending
deriving DecidableEq

/-- defaultdict(int) increment: bump in place, or append with count 1. -/
def bumpCount : List (OutKey × Nat) → OutKey → List (OutKey × Nat)
  | [], k => [(k, 1)]
  | (k2, n) :: rest, k =>
    if k2 = k then (k2, n + 1) :: rest else (k2, n) :: bumpCount rest k

def withPkg (pkg : Option Line) (nk : NameKey) : OutKey :=
  (pkg, nk.1, nk.2)

/-- SanitizerLogParser.add_line. An error is the AssertionError or
AttributeError escaping the call, with the state as left behind. -/
def addLine (st : ParserState) (raw : Line) : Except ParserState ParserState :=
  match stepEmit st.pending raw with
  | .error p => .error { st with pending := p }
  | .ok (ks, pend2) =>
    .ok { counts := (ks.map (withPkg st.pkg)).foldl bumpCount st.counts
          pkg := st.pkg
          pending := pend2 }

/-- SanitizerLogParser.set_package. -/
def setPackage (st : ParserState) (p : Option Line) : ParserState :=
  { st with pkg := p }

/-- A fresh SanitizerLogParser. -/
def initState : ParserState :=
  { counts := [], pkg := none, pending := [] }

def runLines : ParserState → List Line → Except ParserState ParserState
  | st, [] => .ok st
  | st, l :: ls =>
    match addLine st l with
    | .error st2 => .error st2
    | .ok st2 => runLines st2 ls

def lookupCount : List (OutKey × Nat) → OutKey → Nat
  | [], _ => 0
  | (k2, n) :: rest, k => if k = k2 then n else lookupCount rest k

def countOcc : List OutKey → OutKey → Nat
  | [], _ => 0
  | x :: xs, k => (if x = k then 1 else 0) + countOcc xs k

/- ------------------------------------------------------------------
The csv property: csv.writer with the default dialect.
------------------------------------------------------------------ -/

/-- QUOTE_MINIMAL: a field is quoted when it contains the delimiter, the
quote character, or a line terminator character, doubling inner quotes. -/
def quoteField (s : Line) : Line :=
  if s.any (fun c => c = ',' || c = '"' || c = '\n' || c = '\r') then
    '"' :: s.foldr (fun c acc => if c = '"' then '"' :: '"' :: acc else c :: acc) ['"']
  else s

/-- csv.writer renders None as the empty field. -/
def fieldOfOpt : Option Line → Line
  | none => []
  | some s => s

def natDigits (n : Nat) : Line :=
  (toString n).data

def csvRow (fields : List Line) : Line :=
  List.intercalate ",".data (fields.map quoteField) ++ "\r\n".data

/-- SanitizerLogParser.csv: the header row then one row per count entry, in
dict insertion order. -/
def csvString (st : ParserState) : Line :=
  csvRow ["package".data, "error_name".data, "stack_trace_key".data, "count".data] ++
  (st.counts.map (fun kc =>
    csvRow [fieldOfOpt kc.1.1, kc.1.2.1, kc.1.2.2, natDigits kc.2])).flatten

/- ------------------------------------------------------------------
The relation "identical except for address tokens and frame indices",
formalizing the masking invariance property.
------------------------------------------------------------------ -/

/-- Two texts are equal modulo addresses when they agree position by
position, except that maximal `0x[\da-f]+` tokens (which may differ in
their hex digits) are skipped in lockstep. -/
inductive EqModHex : Line → Line → Prop
  | nil : EqModHex [] []
  | tok {d1 d2 t1 t2 : Line} :
      d1 ≠ [] → d2 ≠ [] →
      (∀ c ∈ d1, isHexLower c = true) → (∀ c ∈ d2, isHexLower c = true) →
      headNotHex t1 = true → headNotHex t2 = true →
      EqModHex t1 t2 →
      EqModHex ('0' :: 'x' :: (d1 ++ t1)) ('0' :: 'x' :: (d2 ++ t2))
  | cons {c : Char} {t1 t2 : Line} :
      hexTokSplit (c :: t1) = none → hexTokSplit (c :: t2) = none →
      EqModHex t1 t2 → EqModHex (c :: t1) (c :: t2)

/-- Decomposition of a line shaped like a stack frame: leading whitespace,
the frame index `#\d+`, and the remainder. -/
def frameSplit (l : Line) : Option (Line × Line) :=
  match l.dropWhile isPySpace with
  | [] => none
  | c :: r =>
    if c = '#' then
      if (r.takeWhile Char.isDigit).isEmpty then none
      else some (l.takeWhile isPySpace, r.dropWhile Char.isDigit)
    else none

/-- Two lines are identical except for address tokens anywhere and for the
frame index at the start of a frame-shaped line. -/
def EqModLine (l1 l2 : Line) : Prop :=
  match frameSplit l1, frameSplit l2 with
  | some (w1, r1), some (w2, r2) => w1 = w2 ∧ EqModHex r1 r2
  | none, none => EqModHex l1 l2
  | _, _ => False

/- ------------------------------------------------------------------
Concrete material used by counterexamples and witnesses.
------------------------------------------------------------------ -/

def dem1 : Line := "WARNING: ThreadSanitizer: data race (pid=1)".data
def dem2 : Line := "  Read of size 4 at 0x7b x".data
def dem3 : Line := "    #0 0x1 in foo /ros2/a".data
def dem4 : Line := "  blah".data
def dem5 : Line := "  Previous write of size 4 at 0x7b x".data
def dem6 : Line := "    #0 0x2 in bar /notros/b".data
def dem7 : Line := "  end".data
def dem8 : Line := "SUMMARY: ThreadSanitizer: data race (pid=1)".data

/-- A complete data race section whose second relevant stack trace has no
in-codebase frame. -/
def c4lines : List Line := [dem1, dem2, dem3, dem4, dem5, dem6, dem7, dem8]

def exSt : Except ParserState ParserState → ParserState
  | .error s => s
  | .ok s => s

def isErrEx : Except ParserState ParserState → Bool
  | .error _ => true
  | .ok _ => false

/-- Parser state right before the SUMMARY line of c4lines arrives. -/
def c4preSt : ParserState :=
  { counts := [], pkg := none,
    pending := [([], [dem1, dem2, dem3, dem4, dem5, dem6, dem7])] }

def c4errSt : ParserState := exSt (addLine c4preSt dem8)

/-- Lines of a minimal complete section with one relevant stack trace. -/
def c1a : Line := "ERROR: AddressSanitizer: foo".data
def c1b : Line := "    #0 0x1 in bar /ros2/x".data
def c1c : Line := "SUMMARY: AddressSanitizer: foo".data
def c1lines : List Line := [c1a, c1b, c1c]
def c1K : List NameKey := [("foo".data, "bar /ros2/x".data)]

/- ------------------------------------------------------------------
Helper lemmas.
------------------------------------------------------------------ -/

theorem runEmit_append (L1 : List Line) (p : Pending) (L2 : List Line) :
    runEmit p (L1 ++ L2) =
      match runEmit p L1 with
      | .error e => .error e
      | .ok kp =>
        match runEmit kp.2 L2 with
        | .error e => .error e
        | .ok kp2 => .ok (kp.1 ++ kp2.1, kp2.2) := by
  induction L1 generalizing p with
  | nil =>
    cases h2 : runEmit p L2 with
    | error e => simp [runEmit, h2]
    | ok kp2 => simp [runEmit, h2]
  | cons l ls ih =>
    cases hs : stepEmit p l with
    | error e => simp [runEmit, hs]
    | ok kp =>
      obtain ⟨ks, p2⟩ := kp
      simp only [List.cons_append, List.append_eq, runEmit, hs]
      rw [ih p2]
      cases h1 : runEmit p2 ls with
      | error e => simp [h1]
      | ok kp1 =>
        obtain ⟨ks1, pd1⟩ := kp1
        cases h2 : runEmit pd1 L2 with
        | error e => simp [h1, h2]
        | ok kp2 => simp [h1, h2]

theorem runLines_of_runEmit (L : List Line) (st : ParserState) (K : List NameKey)
    (p2 : Pending) (h : runEmit st.pending L = .ok (K, p2)) :
    runLines st L = .ok { counts := (K.map (withPkg st.pkg)).foldl bumpCount st.counts,
                          pkg := st.pkg, pending := p2 } := by
  induction L generalizing st K with
  | nil =>
    simp [runEmit] at h
    obtain ⟨h1, h2⟩ := h
    subst h1
    subst h2
    simp [runLines]
  | cons l ls ih =>
    cases hs : stepEmit st.pending l with
    | error e =>
      simp only [runEmit, hs] at h
      exact absurd h (by simp)
    | ok kp =>
      obtain ⟨ks, pmid⟩ := kp
      simp only [runEmit, hs] at h
      cases hrest : runEmit pmid ls with
      | error e =>
        rw [hrest] at h
        exact absurd h (by simp)
      | ok kp2 =>
        obtain ⟨ks2, pend3⟩ := kp2
        rw [hrest] at h
        have h' := Except.ok.inj h
        have hK : ks ++ ks2 = K := congrArg Prod.fst h'
        have hp : pend3 = p2 := congrArg Prod.snd h'
        subst hK
        subst hp
        have haddeq : addLine st l =
            .ok { counts := (ks.map (withPkg st.pkg)).foldl bumpCount st.counts,
                  pkg := st.pkg, pending := pmid } := by
          unfold addLine
          rw [hs]
        have ihh := ih { counts := (ks.map (withPkg st.pkg)).foldl bumpCount st.counts,
                         pkg := st.pkg, pending := pmid } ks2 hrest
        simp only [runLines, haddeq]
        rw [ihh]
        simp [List.map_append, List.foldl_append]


theorem lookupCount_bumpCount (cs : List (OutKey × Nat)) (k k2 : OutKey) :
    lookupCount (bumpCount cs k) k2 = lookupCount cs k2 + (if k2 = k then 1 else 0) := by
  induction cs with
  | nil => by_cases h : k2 = k <;> simp [bumpCount, lookupCount, h]
  | cons e rest ih =>
    obtain ⟨k3, n⟩ := e
    by_cases h3 : k3 = k
    · subst h3
      by_cases h2 : k2 = k3 <;> simp [bumpCount, lookupCount, h2]
    · simp only [bumpCount, if_neg h3]
      by_cases h2 : k2 = k3
      · subst h2
        have : ¬(k2 = k) := fun hh => h3 (hh ▸ rfl)
        simp [lookupCount, this]
      · simp [lookupCount, h2, ih]

theorem countOcc_append (xs ys : List OutKey) (k : OutKey) :
    countOcc (xs ++ ys) k = countOcc xs k + countOcc ys k := by
  induction xs with
  | nil => simp [countOcc]
  | cons a t ih => simp [countOcc, ih]; omega

theorem lookupCount_foldl (ks : List OutKey) (cs : List (OutKey × Nat)) (k : OutKey) :
    lookupCount (ks.foldl bumpCount cs) k = lookupCount cs k + countOcc ks k := by
  induction ks generalizing cs with
  | nil => simp [countOcc]
  | cons a t ih =>
    simp only [List.foldl, countOcc, ih, lookupCount_bumpCount]
    by_cases h : k = a
    · subst h
      simp
      omega
    · have h2 : ¬(a = k) := fun hh => h (hh ▸ rfl)
      simp [h, h2]

theorem bumpCount_keys (cs : List (OutKey × Nat)) (k : OutKey) :
    (bumpCount cs k).map Prod.fst =
      if k ∈ cs.map Prod.fst then cs.map Prod.fst else cs.map Prod.fst ++ [k] := by
  induction cs with
  | nil => simp [bumpCount]
  | cons e rest ih =>
    obtain ⟨k2, n⟩ := e
    by_cases h : k2 = k
    · subst h; simp [bumpCount]
    · have h2 : ¬(k = k2) := fun hh => h (hh ▸ rfl)
      by_cases hm : k ∈ rest.map Prod.fst
      · simp [bumpCount, h, ih, hm, h2]
      · simp [bumpCount, h, ih, hm, h2]

theorem mem_bumpCount_keys (cs : List (OutKey × Nat)) (a k : OutKey) :
    k ∈ (bumpCount cs a).map Prod.fst ↔ k ∈ cs.map Prod.fst ∨ k = a := by
  rw [bumpCount_keys]
  by_cases h : a ∈ cs.map Prod.fst
  · simp only [if_pos h]
    constructor
    · exact fun hh => Or.inl hh
    · rintro (hh | rfl)
      · exact hh
      · exact h
  · simp [if_neg h]

theorem bumpCount_keys_pairwise (cs : List (OutKey × Nat)) (k : OutKey)
    (h : (cs.map Prod.fst).Pairwise (· ≠ ·)) :
    ((bumpCount cs k).map Prod.fst).Pairwise (· ≠ ·) := by
  rw [bumpCount_keys]
  by_cases hm : k ∈ cs.map Prod.fst
  · simp [hm, h]
  · simp only [if_neg hm]
    refine List.pairwise_append.2 ⟨h, by simp, ?_⟩
    intro a ha b hb
    simp at hb
    subst hb
    exact fun heq => hm (heq ▸ ha)

theorem foldl_bumpCount_pairwise (ks : List OutKey) (cs : List (OutKey × Nat))
    (h : (cs.map Prod.fst).Pairwise (· ≠ ·)) :
    ((ks.foldl bumpCount cs).map Prod.fst).Pairwise (· ≠ ·) := by
  induction ks generalizing cs with
  | nil => exact h
  | cons a t ih => exact ih _ (bumpCount_keys_pairwise _ _ h)

theorem mem_foldl_bumpCount (ks : List OutKey) (cs : List (OutKey × Nat)) (k : OutKey) :
    k ∈ (ks.foldl bumpCount cs).map Prod.fst ↔ k ∈ cs.map Prod.fst ∨ k ∈ ks := by
  induction ks generalizing cs with
  | nil => simp
  | cons a t ih =>
    simp only [List.foldl, ih, mem_bumpCount_keys, List.mem_cons]
    tauto

/-- Lines matching no begin pattern leave the searching state unchanged. -/
theorem partScan_skip (pats : List (Line → Bool)) (X : List Line) (rest : List Line)
    (acc : List Line) (p : Line → Bool)
    (hp : nthPat pats acc.length = some p) (hX : ∀ x ∈ X, p x = false) :
    partScan pats (X ++ rest) none acc = partScan pats rest none acc := by
  induction X with
  | nil => rfl
  | cons x xs ih =>
    have hx : p x = false := hX x (by simp)
    simp only [List.cons_append, partScan, hp, hx]
    simp only [Bool.false_eq_true, if_false]
    exact ih (fun y hy => hX y (by simp [hy]))

/-- Frame lines are appended to the trace being gathered. -/
theorem partScan_gather (pats : List (Line → Bool)) (F : List Line) (rest : List Line)
    (g acc : List Line) (hF : ∀ x ∈ F, matchStackTraceLine x = true) :
    partScan pats (F ++ rest) (some g) acc = partScan pats rest (some (g ++ F)) acc := by
  induction F generalizing g with
  | nil => simp
  | cons f fs ih =>
    have hf : matchStackTraceLine f = true := hF f (by simp)
    simp only [List.cons_append, List.append_eq, partScan, if_pos hf]
    rw [ih (g ++ [f]) (fun y hy => hF y (by simp [hy]))]
    simp

/-- A line matching the next begin pattern opens a fresh candidate trace. -/
theorem partScan_begin (pats : List (Line → Bool)) (line : Line) (rest : List Line)
    (acc : List Line) (p : Line → Bool)
    (hp : nthPat pats acc.length = some p) (hpl : p line = true) :
    partScan pats (line :: rest) none acc = partScan pats rest (some []) acc := by
  simp only [partScan, hp, hpl, if_pos]

/-- A non-frame line closes the gathered trace; when more patterns remain,
the same line is immediately tested against the next begin pattern. -/
theorem partScan_close (pats : List (Line → Bool)) (line : Line) (rest : List Line)
    (g acc : List Line) (k : Line) (p : Line → Bool)
    (hline : matchStackTraceLine line = false)
    (hg : findTraceKey g = some k)
    (hlen : ¬(acc.length + 1 = pats.length))
    (hp : nthPat pats (acc.length + 1) = some p) :
    (partScan pats (line :: rest) (some g) acc).2 =
      (partScan pats rest (if p line then some [] else none) (acc ++ [k])).2 := by
  simp only [partScan, hline, Bool.false_eq_true, if_false, hg]
  rw [if_neg hlen]
  simp only [hp]

/-- A non-frame line closing the last expected trace stops the loop. -/
theorem partScan_close_break (pats : List (Line → Bool)) (line : Line) (rest : List Line)
    (g acc : List Line) (k : Line)
    (hline : matchStackTraceLine line = false)
    (hg : findTraceKey g = some k)
    (hlen : acc.length + 1 = pats.length) :
    (partScan pats (line :: rest) (some g) acc).2 = some (acc ++ [k]) := by
  simp only [partScan, hline, Bool.false_eq_true, if_false, hg]
  rw [if_pos hlen]

/-- A nonempty trace still gathering at end of part is closed and kept. -/
theorem partScan_end_close (pats : List (Line → Bool)) (g acc : List Line) (k : Line)
    (hne : g.isEmpty = false) (hg : findTraceKey g = some k) :
    (partScan pats [] (some g) acc).2 = some (acc ++ [k]) := by
  simp only [partScan, hne, Bool.false_eq_true, if_false, hg]

/-- A whole part none of whose lines matches the expected pattern yields
exactly the keys collected so far. -/
theorem partScan_all_skip (pats : List (Line → Bool)) (X : List Line) (acc : List Line)
    (p : Line → Bool) (hp : nthPat pats acc.length = some p)
    (hX : ∀ x ∈ X, p x = false) :
    partScan pats X none acc = ([], some acc) := by
  have h := partScan_skip pats X [] acc p hp hX
  simpa using h

/-- Gathering frame lines up to the end of the part closes the trace. -/
theorem partScan_gather_end (pats : List (Line → Bool)) (F : List Line)
    (g acc : List Line) (k : Line)
    (hF : ∀ x ∈ F, matchStackTraceLine x = true)
    (hne : (g ++ F).isEmpty = false)
    (hg : findTraceKey (g ++ F) = some k) :
    (partScan pats F (some g) acc).2 = some (acc ++ [k]) := by
  have h := partScan_gather pats F [] g acc hF
  rw [List.append_nil] at h
  rw [h]
  exact partScan_end_close pats (g ++ F) acc k hne hg

/-- A line that begins a section part is not indented, so it can never match
the direct leak pattern, which starts with a letter. -/
theorem directLeak_needs_partBegin (x : Line) (h : partBegin x = false) :
    matchDirectLeak x = false := by
  cases x with
  | nil => rfl
  | cons c t =>
    simp only [partBegin, Bool.not_eq_false'] at h
    have hc : ¬(c = 'D') := by
      intro hh
      subst hh
      simp [isPySpace] at h
    have hlit : "Direct leak of ".data = 'D' :: "irect leak of ".data := rfl
    simp [matchDirectLeak, hlit, dropLit, hc]

theorem splitPartsAux_step_nil (line : Line) (rest : List Line) :
    splitPartsAux [] (line :: rest) = splitPartsAux [line] rest := by
  simp [splitPartsAux]

theorem splitPartsAux_indent (I : List Line) (acc rest : List Line)
    (hI : ∀ x ∈ I, partBegin x = false) :
    splitPartsAux acc (I ++ rest) = splitPartsAux (acc ++ I) rest := by
  induction I generalizing acc with
  | nil => simp
  | cons i is ih =>
    have hi : partBegin i = false := hI i (by simp)
    simp only [List.cons_append, List.append_eq, splitPartsAux, hi, Bool.false_and,
      Bool.false_eq_true, if_false]
    rw [ih (acc ++ [i]) (fun y hy => hI y (by simp [hy]))]
    simp

theorem splitPartsAux_begin (b : Line) (acc rest : List Line)
    (hb : partBegin b = true) (hacc : acc.isEmpty = false) :
    splitPartsAux acc (b :: rest) = acc :: splitPartsAux [b] rest := by
  simp only [splitPartsAux, hb, hacc, Bool.true_and, Bool.not_false, if_pos]

/-- No occurrence of a pattern can start inside a segment that never
contains the pattern's first character. -/
theorem containsSub_append_head (p0 : Char) (ps : Line) (seg X : Line)
    (hseg : ∀ c ∈ seg, ¬(c = p0)) :
    containsSub (p0 :: ps) (seg ++ X) = containsSub (p0 :: ps) X := by
  induction seg with
  | nil => simp
  | cons s ss ih =>
    have hs : ¬(s = p0) := hseg s (by simp)
    simp only [List.cons_append, containsSub, dropLit, if_neg hs]
    simp only [Option.isSome_none, Bool.false_or]
    exact ih (fun c hc => hseg c (by simp [hc]))

theorem findErrorName_none (l : Line) (h : containsSub "Sanitizer: ".data l = false) :
    findErrorName l = none := by
  induction l with
  | nil => rfl
  | cons c t ih =>
    simp only [containsSub, Bool.or_eq_false_iff] at h
    obtain ⟨h1, h2⟩ := h
    simp only [findErrorName, ih h2]
    cases hd : dropLit "Sanitizer: ".data (c :: t) with
    | some r => rw [hd] at h1; simp at h1
    | none => rfl

theorem dropLit_self_append (p x : Line) : dropLit p (p ++ x) = some x := by
  induction p with
  | nil => rfl
  | cons a ps ih => simp [dropLit, ih]

theorem findNameAux_cons (acc : Line) (c : Char) (t : Line) :
    findNameAux acc (c :: t) =
      if errTerm t = true then some ((c :: acc).reverse)
      else findNameAux (c :: acc) t := rfl

theorem findNameAux_spec : ∀ (name : Line) (tail acc : Line), name ≠ [] →
    errTerm tail = true →
    (∀ j, j < name.length → 0 < j → errTerm (name.drop j ++ tail) = false) →
    findNameAux acc (name ++ tail) = some (acc.reverse ++ name) := by
  intro name
  induction name with
  | nil => intro tail acc h; exact absurd rfl h
  | cons c n2 ih =>
    intro tail acc _ hterm hin
    cases n2 with
    | nil =>
      simp only [List.cons_append, List.nil_append]
      rw [findNameAux_cons, if_pos hterm]
      simp
    | cons d n3 =>
      have hterm1 : errTerm (d :: (n3 ++ tail)) = false := by
        have h := hin 1 (by simp) (by omega)
        simpa using h
      have ih2 := ih tail (c :: acc) (by simp) hterm (by
        intro j hj1 hj2
        have h := hin (j + 1) (by simp at hj1 ⊢; omega) (by omega)
        simpa using h)
      rw [List.cons_append] at ih2
      simp only [List.cons_append]
      rw [findNameAux_cons, hterm1]
      simp only [Bool.false_eq_true, if_false]
      rw [ih2]
      simp

theorem findNameIn_spec (name tail : Line) (hne : name ≠ [])
    (hterm : errTerm tail = true)
    (hin : ∀ j, j < name.length → 0 < j → errTerm (name.drop j ++ tail) = false) :
    findNameIn (name ++ tail) = some name := by
  rw [findNameIn, findNameAux_spec name tail [] hne hterm hin]
  simp

theorem findTraceKey_append_none (pre rest : List Line)
    (hpre : ∀ x ∈ pre, matchKeyLine x = none) :
    findTraceKey (pre ++ rest) = findTraceKey rest := by
  induction pre with
  | nil => simp
  | cons a t ih =>
    have ha : matchKeyLine a = none := hpre a (by simp)
    have ht := ih (fun x hx => hpre x (List.mem_cons_of_mem _ hx))
    simp [findTraceKey, ha, ht]

/-- Invariant of the gathering loop: a line enters the gathered group only
after matching the stack frame pattern. -/
theorem partScan_passed_frames (pats : List (Line → Bool)) (lines : List Line) :
    ∀ (gather : Option (List Line)) (acc : List Line),
      (∀ g0, gather = some g0 → ∀ x ∈ g0, matchStackTraceLine x = true) →
      ∀ g ∈ (partScan pats lines gather acc).1, ∀ x ∈ g, matchStackTraceLine x = true := by
  have hinvif : ∀ (p : Line → Bool) (line : Line) (g0 : List Line),
      (if p line then some [] else (none : Option (List Line))) = some g0 →
      ∀ x ∈ g0, matchStackTraceLine x = true := by
    intro p line g0 hh x' hx'
    by_cases hpl : p line = true <;> simp [hpl] at hh
    subst hh
    simp at hx'
  induction lines with
  | nil =>
    intro gather acc hg g hgmem x hx
    cases gather with
    | none => simp [partScan] at hgmem
    | some g0 =>
      have hg0 := hg g0 rfl
      by_cases hge : g0.isEmpty
      · simp [partScan, hge] at hgmem
      · rcases hk : findTraceKey g0 with _ | k <;>
          simp [partScan, hge, hk] at hgmem <;>
          exact hg0 x (hgmem ▸ hx)
  | cons line rest ih =>
    intro gather acc hg g hgmem x hx
    cases gather with
    | none =>
      rcases hp : nthPat pats acc.length with _ | p
      · simp [partScan, hp] at hgmem
      · simp only [partScan, hp] at hgmem
        exact ih _ _ (hinvif p line) g hgmem x hx
    | some g0 =>
      have hg0 : ∀ y ∈ g0, matchStackTraceLine y = true := hg g0 rfl
      by_cases hf : matchStackTraceLine line = true
      · simp only [partScan, if_pos hf] at hgmem
        refine ih _ _ ?_ g hgmem x hx
        intro g1 hh x' hx'
        have hg1 : g1 = g0 ++ [line] := by injection hh with hh2; exact hh2.symm
        subst hg1
        rcases List.mem_append.1 hx' with h | h
        · exact hg0 x' h
        · simp at h; rw [h]; exact hf
      · have hf2 : matchStackTraceLine line = false := by
          cases hm : matchStackTraceLine line
          · rfl
          · exact absurd hm hf
        rcases hk : findTraceKey g0 with _ | k
        · simp [partScan, hf2, hk] at hgmem
          exact hg0 x (hgmem ▸ hx)
        · by_cases hlen : acc.length + 1 = pats.length
          · simp only [partScan, hf2, hk] at hgmem
            rw [if_pos hlen] at hgmem
            simp at hgmem
            exact hg0 x (hgmem ▸ hx)
          · simp only [partScan, hf2, hk] at hgmem
            rw [if_neg hlen] at hgmem
            rcases hp : nthPat pats (acc.length + 1) with _ | p
            · simp [hp] at hgmem
              exact hg0 x (hgmem ▸ hx)
            · simp only [hp] at hgmem
              rcases List.mem_cons.1 hgmem with h | h
              · exact hg0 x (h ▸ hx)
              · exact ih _ _ (hinvif p line) g h x hx

/- ------------------------------------------------------------------
Lemmas for the masking invariance (claim C2).
------------------------------------------------------------------ -/

theorem takeWhile_mem_true (p : Char → Bool) : ∀ (l : Line), ∀ c ∈ l.takeWhile p, p c = true := by
  intro l
  induction l with
  | nil => simp [List.takeWhile]
  | cons a t ih =>
    intro c hc
    by_cases ha : p a = true
    · rw [List.takeWhile_cons, if_pos ha] at hc
      rcases List.mem_cons.1 hc with h | h
      · rw [h]; exact ha
      · exact ih c h
    · rw [List.takeWhile_cons, if_neg ha] at hc
      simp at hc

theorem dropWhile_headNotHex (l : Line) : headNotHex (l.dropWhile isHexLower) = true := by
  induction l with
  | nil => rfl
  | cons c t ih =>
    by_cases hc : isHexLower c = true
    · rw [List.dropWhile_cons, if_pos hc]; exact ih
    · rw [List.dropWhile_cons, if_neg hc]
      simp only [headNotHex, Bool.not_eq_true']
      exact Bool.of_not_eq_true hc

/-- The maximal hex run of an all-hex block followed by a non-hex head. -/
theorem hexRun_takeWhile (d t : Line) (hd : ∀ c ∈ d, isHexLower c = true)
    (ht : headNotHex t = true) :
    (d ++ t).takeWhile isHexLower = d ∧ (d ++ t).dropWhile isHexLower = t := by
  induction d with
  | nil =>
    cases t with
    | nil => simp
    | cons c t2 =>
      simp only [headNotHex, Bool.not_eq_true'] at ht
      simp [List.takeWhile_cons, List.dropWhile_cons, ht]
  | cons a d2 ih =>
    have ha : isHexLower a = true := hd a (by simp)
    have ih2 := ih (fun c hc => hd c (by simp [hc]))
    simp only [List.cons_append, List.takeWhile_cons, List.dropWhile_cons, ha, if_pos]
    exact ⟨by rw [ih2.1], by rw [ih2.2]⟩

theorem hexTokSplit_tok (d t : Line) (hne : d ≠ []) (hd : ∀ c ∈ d, isHexLower c = true)
    (ht : headNotHex t = true) :
    hexTokSplit ('0' :: 'x' :: (d ++ t)) = some t := by
  have h := hexRun_takeWhile d t hd ht
  simp only [hexTokSplit, h.1, h.2]
  cases d with
  | nil => exact absurd rfl hne
  | cons a d2 => simp

theorem hexTokSplit_inv (l t : Line) (h : hexTokSplit l = some t) :
    ∃ d, l = '0' :: 'x' :: (d ++ t) ∧ d ≠ [] ∧ (∀ c ∈ d, isHexLower c = true) ∧
      headNotHex t = true := by
  cases l with
  | nil => exact absurd h (by simp [hexTokSplit])
  | cons c1 l2 =>
    cases l2 with
    | nil => exact absurd h (by simp [hexTokSplit])
    | cons c2 r =>
      by_cases hc : (c1 = '0' && c2 = 'x') = true
      · simp only [hexTokSplit, hc, if_pos] at h
        by_cases he : (r.takeWhile isHexLower).isEmpty
        · rw [if_pos he] at h; exact absurd h (by simp)
        · rw [if_neg he] at h
          have ht : t = r.dropWhile isHexLower := (Option.some.inj h).symm
          simp only [Bool.and_eq_true, decide_eq_true_eq] at hc
          refine ⟨r.takeWhile isHexLower, ?_, ?_, takeWhile_mem_true isHexLower r, ?_⟩
          · rw [hc.1, hc.2, ht, List.takeWhile_append_dropWhile]
          · intro hh
            rw [hh] at he
            exact he rfl
          · rw [ht]; exact dropWhile_headNotHex r
      · simp only [hexTokSplit, hc, Bool.false_eq_true, if_false] at h
        exact absurd h (by simp)

theorem EqModHex_refl_aux : ∀ (n : Nat) (l : Line), l.length ≤ n → EqModHex l l := by
  intro n
  induction n with
  | zero =>
    intro l h
    have hl : l = [] := List.length_eq_zero.1 (Nat.le_zero.1 h)
    subst hl
    exact EqModHex.nil
  | succ n ih =>
    intro l h
    cases hx : hexTokSplit l with
    | some t =>
      obtain ⟨d, hl, hne, hall, hhead⟩ := hexTokSplit_inv l t hx
      subst hl
      have hlen : t.length ≤ n := by
        simp only [List.length_cons, List.length_append] at h
        cases d with
        | nil => exact absurd rfl hne
        | cons a d2 => simp at h; omega
      exact EqModHex.tok hne hne hall hall hhead hhead (ih t hlen)
    | none =>
      cases l with
      | nil => exact EqModHex.nil
      | cons c t =>
        have hlen : t.length ≤ n := by simp at h; omega
        exact EqModHex.cons hx hx (ih t hlen)

theorem EqModHex_refl (l : Line) : EqModHex l l :=
  EqModHex_refl_aux l.length l (le_refl _)

/-- Consuming a literal containing no '0' is possible on one side exactly
when it is on the other, and the remainders stay related. -/
theorem EqModHex.dropLitRel {t1 t2 : Line} (h : EqModHex t1 t2) :
    ∀ (p : Line), (∀ c ∈ p, ¬(c = '0')) →
    (dropLit p t1 = none ∧ dropLit p t2 = none) ∨
    (∃ r1 r2, dropLit p t1 = some r1 ∧ dropLit p t2 = some r2 ∧ EqModHex r1 r2) := by
  induction h with
  | nil =>
    intro p hp
    cases p with
    | nil => exact Or.inr ⟨[], [], rfl, rfl, EqModHex.nil⟩
    | cons a ps => exact Or.inl ⟨rfl, rfl⟩
  | tok hd1 hd2 ha1 ha2 hh1 hh2 hrec ih =>
    intro p hp
    cases p with
    | nil => exact Or.inr ⟨_, _, rfl, rfl, EqModHex.tok hd1 hd2 ha1 ha2 hh1 hh2 hrec⟩
    | cons a ps =>
      have ha : ¬('0' = a) := fun hh => hp a (by simp) hh.symm
      exact Or.inl ⟨by simp [dropLit, ha], by simp [dropLit, ha]⟩
  | cons hx1 hx2 hrec ih =>
    rename_i c t1 t2
    intro p hp
    cases p with
    | nil => exact Or.inr ⟨_, _, rfl, rfl, EqModHex.cons hx1 hx2 hrec⟩
    | cons a ps =>
      by_cases hca : c = a
      · subst hca
        have := ih ps (fun y hy => hp y (by simp [hy]))
        rcases this with ⟨e1, e2⟩ | ⟨r1, r2, e1, e2, hr⟩
        · exact Or.inl ⟨by simp [dropLit, e1], by simp [dropLit, e2]⟩
        · exact Or.inr ⟨r1, r2, by simp [dropLit, e1], by simp [dropLit, e2], hr⟩
      · exact Or.inl ⟨by simp [dropLit, hca], by simp [dropLit, hca]⟩

/-- Leading whitespace agrees and its removal preserves the relation. -/
theorem EqModHex.dropSpace {t1 t2 : Line} (h : EqModHex t1 t2) :
    EqModHex (t1.dropWhile isPySpace) (t2.dropWhile isPySpace) ∧
    t1.takeWhile isPySpace = t2.takeWhile isPySpace := by
  induction h with
  | nil => exact ⟨EqModHex.nil, rfl⟩
  | tok hd1 hd2 ha1 ha2 hh1 hh2 hrec ih =>
    have h0 : isPySpace '0' = false := rfl
    constructor
    · simp only [List.dropWhile_cons, h0, Bool.false_eq_true, if_false]
      exact EqModHex.tok hd1 hd2 ha1 ha2 hh1 hh2 hrec
    · simp only [List.takeWhile_cons, h0, Bool.false_eq_true, if_false]
  | cons hx1 hx2 hrec ih =>
    rename_i c t1 t2
    by_cases hc : isPySpace c = true
    · constructor
      · simpa [List.dropWhile_cons, hc] using ih.1
      · simp only [List.takeWhile_cons, hc, if_pos]
        rw [ih.2]
    · constructor
      · simpa [List.dropWhile_cons, hc] using EqModHex.cons hx1 hx2 hrec
      · simp [List.takeWhile_cons, hc]

/-- Occurrence of the codebase marker is invariant under the relation. -/
theorem EqModHex.containsRos {t1 t2 : Line} (h : EqModHex t1 t2) :
    containsSub "/ros2".data t1 = containsSub "/ros2".data t2 := by
  induction h with
  | nil => rfl
  | tok hd1 hd2 ha1 ha2 hh1 hh2 hrec ih =>
    rename_i d1 d2 u1 u2
    have hlit : "/ros2".data = '/' :: "ros2".data := rfl
    have hex_ne : ∀ (d : Line), (∀ c ∈ d, isHexLower c = true) →
        ∀ c ∈ ('0' :: 'x' :: d), ¬(c = '/') := by
      intro d hall c hc hslash
      subst hslash
      rcases List.mem_cons.1 hc with h1 | h1
      · exact absurd h1.symm (by decide)
      rcases List.mem_cons.1 h1 with h2 | h2
      · exact absurd h2.symm (by decide)
      · have := hall _ h2
        exact absurd this (by decide)
    have e1 : containsSub "/ros2".data ('0' :: 'x' :: (d1 ++ u1)) =
        containsSub "/ros2".data u1 := by
      have := containsSub_append_head '/' "ros2".data ('0' :: 'x' :: d1) u1
        (hex_ne d1 ha1)
      rw [hlit]
      simpa using this
    have e2 : containsSub "/ros2".data ('0' :: 'x' :: (d2 ++ u2)) =
        containsSub "/ros2".data u2 := by
      have := containsSub_append_head '/' "ros2".data ('0' :: 'x' :: d2) u2
        (hex_ne d2 ha2)
      rw [hlit]
      simpa using this
    rw [e1, e2, ih]
  | cons hx1 hx2 hrec ih =>
    rename_i c t1 t2
    simp only [containsSub]
    rw [ih]
    have hlit : "/ros2".data = '/' :: "ros2".data := rfl
    rcases (EqModHex.cons hx1 hx2 hrec).dropLitRel "/ros2".data (by decide) with
      ⟨e1, e2⟩ | ⟨r1, r2, e1, e2, _⟩ <;> rw [e1, e2] <;> rfl

theorem maskHex_tok_step (d t : Line) (hne : d ≠ []) (hd : ∀ c ∈ d, isHexLower c = true)
    (ht : headNotHex t = true) :
    maskHex ('0' :: 'x' :: (d ++ t)) = '0' :: 'x' :: 'X' :: maskHex t := by
  rw [maskHex_cons]
  have htok : tokHead ('x' :: (d ++ t)) = true := by
    cases d with
    | nil => exact absurd rfl hne
    | cons a d2 =>
      have ha := hd a (by simp)
      simp [List.cons_append, tokHead, ha]
  rw [if_pos (by simp [htok])]
  have hr := hexRun_takeWhile d t hd ht
  simp only [List.drop_succ_cons, List.drop_zero]
  rw [hr.2]

theorem maskHex_cons_step (c : Char) (t : Line) (h : hexTokSplit (c :: t) = none) :
    maskHex (c :: t) = c :: maskHex t := by
  rw [maskHex_cons]
  rw [if_neg ?_]
  intro hcond
  simp only [Bool.and_eq_true, decide_eq_true_eq] at hcond
  obtain ⟨hc, htok⟩ := hcond
  subst hc
  cases t with
  | nil => simp [tokHead] at htok
  | cons x t2 =>
    cases t2 with
    | nil => simp [tokHead] at htok
    | cons d r =>
      simp only [tokHead, Bool.and_eq_true, decide_eq_true_eq] at htok
      obtain ⟨hx, hdx⟩ := htok
      subst hx
      have hx2 : hexTokSplit ('0' :: 'x' :: d :: r) =
          (if ((d :: r).takeWhile isHexLower).isEmpty then none
           else some ((d :: r).dropWhile isHexLower)) := by
        simp only [hexTokSplit]
        rw [if_pos (by decide)]
      rw [hx2] at h
      rw [List.takeWhile_cons, if_pos hdx] at h
      simp at h

theorem EqModHex.maskHex_eq {t1 t2 : Line} (h : EqModHex t1 t2) :
    maskHex t1 = maskHex t2 := by
  induction h with
  | nil => rfl
  | tok hd1 hd2 ha1 ha2 hh1 hh2 hrec ih =>
    rename_i d1 d2 u1 u2
    rw [maskHex_tok_step d1 u1 hd1 ha1 hh1, maskHex_tok_step d2 u2 hd2 ha2 hh2, ih]
  | cons hx1 hx2 hrec ih =>
    rename_i c u1 u2
    rw [maskHex_cons_step c u1 hx1, maskHex_cons_step c u2 hx2, ih]

theorem hexIn_none_of_split_none (l : Line) (h : hexTokSplit l = none) :
    hexIn l = none := by
  have hlit : "0x".data = '0' :: 'x' :: [] := rfl
  cases l with
  | nil => rfl
  | cons c t =>
    cases t with
    | nil =>
      by_cases hc : c = '0' <;> simp [hexIn, hlit, dropLit, hc]
    | cons x t2 =>
      by_cases hc : c = '0'
      · subst hc
        by_cases hx : x = 'x'
        · subst hx
          have hx2 : hexTokSplit ('0' :: 'x' :: t2) =
              (if (t2.takeWhile isHexLower).isEmpty then none
               else some (t2.dropWhile isHexLower)) := by
            simp only [hexTokSplit]
            rw [if_pos (by decide)]
          rw [hx2] at h
          by_cases he : (t2.takeWhile isHexLower).isEmpty
          · simp [hexIn, hlit, dropLit, he]
          · rw [if_neg he] at h
            exact absurd h (by simp)
        · simp [hexIn, hlit, dropLit, hx]
      · simp [hexIn, hlit, dropLit, hc]

/-- The optional `0x[\da-f]+ in` group is taken on one side exactly when it
is on the other, with related remainders. -/
theorem EqModHex.hexInRel {t1 t2 : Line} (h : EqModHex t1 t2) :
    (hexIn t1 = none ∧ hexIn t2 = none) ∨
    (∃ r1 r2, hexIn t1 = some r1 ∧ hexIn t2 = some r2 ∧ EqModHex r1 r2) := by
  cases h with
  | nil => exact Or.inl ⟨rfl, rfl⟩
  | tok hd1 hd2 ha1 ha2 hh1 hh2 hrec =>
    rename_i d1 d2 u1 u2
    have e : ∀ (d u : Line), d ≠ [] → (∀ c ∈ d, isHexLower c = true) →
        headNotHex u = true →
        hexIn ('0' :: 'x' :: (d ++ u)) = dropLit " in".data u := by
      intro d u hne hall hhead
      have hr := hexRun_takeWhile d u hall hhead
      have hd0 : dropLit "0x".data ('0' :: 'x' :: (d ++ u)) = some (d ++ u) := rfl
      simp only [hexIn, hd0, hr.1, hr.2]
      cases d with
      | nil => exact absurd rfl hne
      | cons a d2 => simp
    rcases hrec.dropLitRel " in".data (by decide) with ⟨f1, f2⟩ | ⟨r1, r2, f1, f2, hr12⟩
    · exact Or.inl ⟨by rw [e d1 u1 hd1 ha1 hh1, f1], by rw [e d2 u2 hd2 ha2 hh2, f2]⟩
    · exact Or.inr ⟨r1, r2, by rw [e d1 u1 hd1 ha1 hh1, f1],
        by rw [e d2 u2 hd2 ha2 hh2, f2], hr12⟩
  | cons hx1 hx2 hrec =>
    exact Or.inl ⟨hexIn_none_of_split_none _ hx1, hexIn_none_of_split_none _ hx2⟩

/-- The final key capture agrees up to masking. -/
theorem EqModHex.keyTailRel {t1 t2 : Line} (h : EqModHex t1 t2) :
    (keyTail t1 = none ∧ keyTail t2 = none) ∨
    (∃ k1 k2, keyTail t1 = some k1 ∧ keyTail t2 = some k2 ∧ maskHex k1 = maskHex k2) := by
  have hd := h.dropSpace
  have hcs := hd.1.containsRos
  by_cases hc : containsSub "/ros2".data (t1.dropWhile isPySpace) = true
  · have hc2 : containsSub "/ros2".data (t2.dropWhile isPySpace) = true := by
      rw [← hcs]; exact hc
    exact Or.inr ⟨_, _, by simp [keyTail, hc], by simp [keyTail, hc2], hd.1.maskHex_eq⟩
  · have hc2 : ¬(containsSub "/ros2".data (t2.dropWhile isPySpace) = true) := by
      rw [← hcs]; exact hc
    exact Or.inl ⟨by simp [keyTail, hc], by simp [keyTail, hc2]⟩

theorem keyTail_masked {u1 u2 : Line} (h : EqModHex u1 u2) :
    (keyTail u1).map maskHex = (keyTail u2).map maskHex := by
  rcases h.keyTailRel with ⟨g1, g2⟩ | ⟨k1, k2, g1, g2, hm⟩
  · rw [g1, g2]
  · rw [g1, g2]
    simpa using hm

theorem keyBranch_masked {s1 s2 u1 u2 : Line} (hs : EqModHex s1 s2) (hu : EqModHex u1 u2) :
    (match keyTail s1 with | some k => some k | none => keyTail u1).map maskHex =
    (match keyTail s2 with | some k => some k | none => keyTail u2).map maskHex := by
  rcases hs.keyTailRel with ⟨f1, f2⟩ | ⟨k1, k2, f1, f2, hm⟩
  · rw [f1, f2]
    show (keyTail u1).map maskHex = (keyTail u2).map maskHex
    exact keyTail_masked hu
  · rw [f1, f2]
    show some (maskHex k1) = some (maskHex k2)
    rw [hm]

theorem EqModHex.keyAfterIdx_masked {r1 r2 : Line} (h : EqModHex r1 r2) :
    (keyAfterIdx r1).map maskHex = (keyAfterIdx r2).map maskHex := by
  cases h with
  | nil => rfl
  | tok hd1 hd2 ha1 ha2 hh1 hh2 hrec =>
    have h0 : ¬(('0' : Char) = ' ') := by decide
    simp [keyAfterIdx, h0]
  | cons hx1 hx2 hrec =>
    rename_i c u1 u2
    by_cases hc : c = ' '
    · subst hc
      show (Option.map maskHex (match hexIn u1 with
        | some r3 => (match keyTail r3 with | some k => some k | none => keyTail u1)
        | none => keyTail u1)) = (Option.map maskHex (match hexIn u2 with
        | some r3 => (match keyTail r3 with | some k => some k | none => keyTail u2)
        | none => keyTail u2))
      rcases hrec.hexInRel with ⟨e1, e2⟩ | ⟨s1, s2, e1, e2, hs⟩
      · rw [e1, e2]
        show (keyTail u1).map maskHex = (keyTail u2).map maskHex
        exact keyTail_masked hrec
      · rw [e1, e2]
        show (match keyTail s1 with | some k => some k | none => keyTail u1).map maskHex =
          (match keyTail s2 with | some k => some k | none => keyTail u2).map maskHex
        exact keyBranch_masked hs hrec
    · simp [keyAfterIdx, hc]

theorem matchKeyLine_eq_of_frameSplit (l : Line) (w r : Line)
    (h : frameSplit l = some (w, r)) : matchKeyLine l = keyAfterIdx r := by
  unfold frameSplit at h
  unfold matchKeyLine
  generalize hd : l.dropWhile isPySpace = ld at h ⊢
  cases ld with
  | nil => exact absurd h (by simp)
  | cons c rest =>
    dsimp only at h ⊢
    by_cases hc : c = '#'
    · subst hc
      rw [if_pos rfl] at h ⊢
      by_cases he : (rest.takeWhile Char.isDigit).isEmpty
      · rw [if_pos he] at h
        exact absurd h (by simp)
      · rw [if_neg he] at h ⊢
        have h2 := Option.some.inj h
        have h3 : rest.dropWhile Char.isDigit = r := congrArg Prod.snd h2
        rw [h3]
    · rw [if_neg hc] at h
      exact absurd h (by simp)

theorem matchKeyLine_none_of_frameSplit_none (l : Line) (h : frameSplit l = none) :
    matchKeyLine l = none := by
  unfold frameSplit at h
  unfold matchKeyLine
  generalize hd : l.dropWhile isPySpace = ld at h ⊢
  cases ld with
  | nil => rfl
  | cons c rest =>
    dsimp only at h ⊢
    by_cases hc : c = '#'
    · subst hc
      rw [if_pos rfl] at h ⊢
      by_cases he : (rest.takeWhile Char.isDigit).isEmpty
      · rw [if_pos he]
      · rw [if_neg he] at h
        exact absurd h (by simp)
    · rw [if_neg hc]

theorem EqModLine.masked_key_eq {l1 l2 : Line} (h : EqModLine l1 l2) :
    (matchKeyLine l1).map maskHex = (matchKeyLine l2).map maskHex := by
  unfold EqModLine at h
  cases hf1 : frameSplit l1 with
  | none =>
    cases hf2 : frameSplit l2 with
    | none =>
      rw [matchKeyLine_none_of_frameSplit_none l1 hf1,
        matchKeyLine_none_of_frameSplit_none l2 hf2]
    | some wr =>
      rw [hf1, hf2] at h
      exact h.elim
  | some wr1 =>
    cases hf2 : frameSplit l2 with
    | none =>
      rw [hf1, hf2] at h
      exact h.elim
    | some wr2 =>
      rw [hf1, hf2] at h
      obtain ⟨w1, r1⟩ := wr1
      obtain ⟨w2, r2⟩ := wr2
      obtain ⟨hw, hr⟩ := h
      rw [matchKeyLine_eq_of_frameSplit l1 w1 r1 hf1,
        matchKeyLine_eq_of_frameSplit l2 w2 r2 hf2]
      exact hr.keyAfterIdx_masked

/- ------------------------------------------------------------------
Claim theorems.
------------------------------------------------------------------ -/

/-- C1: feeding a finalized section's lines a second time under a fixed
package increments the existing rows instead of creating new ones: after
both passes the emitted key list is doubled, the report has pairwise
distinct rows whose keys are exactly the keys of one pass, and a key that
one pass produces exactly once ends with count 2. -/
theorem c1_refeeding_section_doubles_counts (L : List Line) (K : List NameKey)
    (pkg : Line) (h : runEmit [] L = .ok (K, [])) :
    runEmit [] (L ++ L) = .ok (K ++ K, []) ∧
    runLines { counts := [], pkg := some pkg, pending := [] } (L ++ L) =
      .ok { counts := ((K ++ K).map (withPkg (some pkg))).foldl bumpCount [],
            pkg := some pkg, pending := [] } ∧
    ((((K ++ K).map (withPkg (some pkg))).foldl bumpCount
        ([] : List (OutKey × Nat))).map Prod.fst).Pairwise (· ≠ ·) ∧
    (∀ k : OutKey,
       k ∈ (((K ++ K).map (withPkg (some pkg))).foldl bumpCount
         ([] : List (OutKey × Nat))).map Prod.fst ↔
       k ∈ K.map (withPkg (some pkg))) ∧
    (∀ nk : NameKey, countOcc (K.map (withPkg (some pkg))) (withPkg (some pkg) nk) = 1 →
       lookupCount (((K ++ K).map (withPkg (some pkg))).foldl bumpCount [])
         (withPkg (some pkg) nk) = 2) := by
  have hdouble : runEmit [] (L ++ L) = .ok (K ++ K, []) := by
    rw [runEmit_append, h]
    simp [h]
  refine ⟨hdouble, ?_, ?_, ?_, ?_⟩
  · exact runLines_of_runEmit _ _ _ _ hdouble
  · exact foldl_bumpCount_pairwise _ _ (by simp)
  · intro k
    rw [mem_foldl_bumpCount]
    simp [List.map_append]
  · intro nk hc
    rw [lookupCount_foldl, List.map_append, countOcc_append, hc]
    simp [lookupCount]

theorem c1_refeeding_section_doubles_counts_witness :
    runEmit [] (c1lines ++ c1lines) = .ok (c1K ++ c1K, []) ∧
    lookupCount (((c1K ++ c1K).map (withPkg (some "p".data))).foldl bumpCount [])
      (withPkg (some "p".data) ("foo".data, "bar /ros2/x".data)) = 2 :=
  ⟨(c1_refeeding_section_doubles_counts c1lines c1K "p".data rfl).1,
   (c1_refeeding_section_doubles_counts c1lines c1K "p".data rfl).2.2.2.2
     ("foo".data, "bar /ros2/x".data) (by decide)⟩

/-- C2: two stack trace line sequences that are identical except for the
hexadecimal address tokens in their lines and the frame index numbers at
the start of their frame-shaped lines produce the same extracted stack
trace key. -/
theorem c2_masked_key_invariant (L1 L2 : List Line)
    (h : List.Forall₂ EqModLine L1 L2) :
    findTraceKey L1 = findTraceKey L2 := by
  induction h with
  | nil => rfl
  | cons hl hrest ih =>
    have hk := EqModLine.masked_key_eq hl
    rename_i a b as bs
    simp only [findTraceKey]
    cases h1 : matchKeyLine a with
    | none =>
      cases h2 : matchKeyLine b with
      | none => simp only [h1, h2]; exact ih
      | some k2 => rw [h1, h2] at hk; simp at hk
    | some k1 =>
      cases h2 : matchKeyLine b with
      | none => rw [h1, h2] at hk; simp at hk
      | some k2 =>
        rw [h1, h2] at hk
        simp only [Option.map_some'] at hk
        simp only [h1, h2, hk]

def c2l1 : Line := "  #1 0xa7 in foo /ros2/q".data
def c2l2 : Line := "  #52 0xbb3 in foo /ros2/q".data

theorem c2_pair_eqmod : EqModLine c2l1 c2l2 := by
  show "  ".data = "  ".data ∧
    EqModHex " 0xa7 in foo /ros2/q".data " 0xbb3 in foo /ros2/q".data
  refine ⟨rfl, ?_⟩
  have h1 : EqModHex ('0' :: 'x' :: ("a7".data ++ " in foo /ros2/q".data))
      ('0' :: 'x' :: ("bb3".data ++ " in foo /ros2/q".data)) :=
    EqModHex.tok (by decide) (by decide) (by decide) (by decide) (by decide) (by decide)
      (EqModHex_refl _)
  exact EqModHex.cons (by decide) (by decide) h1

theorem c2_masked_key_invariant_witness :
    findTraceKey [c2l1] = findTraceKey [c2l2] :=
  c2_masked_key_invariant [c2l1] [c2l2]
    (List.Forall₂.cons c2_pair_eqmod List.Forall₂.nil)

/-- Decomposition of the routing loop: the first matching entry absorbs the
line, every entry before it failed to match, every entry after it is left
untouched. -/
theorem scanPending_first_match (pend : Pending) (line : Line) :
    ((∀ e ∈ pend, dropLit e.1 line = none) ∧ scanPending pend line = .ok ([], pend)) ∨
    (∃ A q ls B d, pend = A ++ (q, ls) :: B ∧
      (∀ e ∈ A, dropLit e.1 line = none) ∧ dropLit q line = some d ∧
      ((sectionEndMatch line = false ∧
         scanPending pend line = .ok ([], A ++ (q, ls ++ [d]) :: B)) ∨
       (sectionEndMatch line = true ∧
         ((∃ nk, mkSection (ls ++ [d]) = some nk ∧
            scanPending pend line = .ok (nk.2.map (fun k => (nk.1, k)), A ++ B)) ∨
          (mkSection (ls ++ [d]) = none ∧
            scanPending pend line = .error (A ++ (q, ls ++ [d]) :: B)))))) := by
  induction pend with
  | nil => exact Or.inl ⟨by simp, rfl⟩
  | cons e rest ih =>
    obtain ⟨q0, ls0⟩ := e
    cases hd : dropLit q0 line with
    | some d0 =>
      right
      refine ⟨[], q0, ls0, rest, d0, rfl, by simp, hd, ?_⟩
      cases he : sectionEndMatch line with
      | false => exact Or.inl ⟨rfl, by simp [scanPending, hd, he]⟩
      | true =>
        refine Or.inr ⟨rfl, ?_⟩
        cases hm : mkSection (ls0 ++ [d0]) with
        | none => exact Or.inr ⟨rfl, by simp [scanPending, hd, he, hm]⟩
        | some nk => exact Or.inl ⟨nk, rfl, by simp [scanPending, hd, he, hm]⟩
    | none =>
      rcases ih with ⟨hall, hok⟩ | ⟨A, q, ls, B, d, hpd, hA, hdq, hrest⟩
      · refine Or.inl ⟨?_, by simp [scanPending, hd, hok]⟩
        intro e he
        rcases List.mem_cons.1 he with h | h
        · rw [h]; exact hd
        · exact hall e h
      · right
        refine ⟨(q0, ls0) :: A, q, ls, B, d, by simp [hpd], ?_, hdq, ?_⟩
        · intro e he
          rcases List.mem_cons.1 he with h | h
          · rw [h]; exact hd
          · exact hA e h
        · rcases hrest with ⟨hend, heq⟩ | ⟨hend, hrest2⟩
          · subst hpd
            exact Or.inl ⟨hend, by simp [scanPending, hd, heq]⟩
          · subst hpd
            refine Or.inr ⟨hend, ?_⟩
            rcases hrest2 with ⟨nk, hmk, heq⟩ | ⟨hmk, heq⟩
            · exact Or.inl ⟨nk, hmk, by simp [scanPending, hd, heq]⟩
            · exact Or.inr ⟨hmk, by simp [scanPending, hd, heq]⟩

/-- C3: every raw line fed to add_line is first stripped of trailing
whitespace and, after the registration step, appended to the buffer of at
most one active pending section: the earliest-registered one whose leading
segment matches the stripped line; no earlier entry matched, and no
later-registered entry receives the line even if its segment also matches
(its buffer reappears untouched in the result). -/
theorem c3_line_routed_to_first_match (pend : Pending) (raw : Line) :
    stepEmit pend raw =
      scanPending (registeredPending pend (rstrip raw)) (rstrip raw) ∧
    (((∀ e ∈ registeredPending pend (rstrip raw), dropLit e.1 (rstrip raw) = none) ∧
       scanPending (registeredPending pend (rstrip raw)) (rstrip raw) =
         .ok ([], registeredPending pend (rstrip raw))) ∨
     (∃ A q ls B d, registeredPending pend (rstrip raw) = A ++ (q, ls) :: B ∧
       (∀ e ∈ A, dropLit e.1 (rstrip raw) = none) ∧ dropLit q (rstrip raw) = some d ∧
       ((sectionEndMatch (rstrip raw) = false ∧
          scanPending (registeredPending pend (rstrip raw)) (rstrip raw) =
            .ok ([], A ++ (q, ls ++ [d]) :: B)) ∨
        (sectionEndMatch (rstrip raw) = true ∧
          ((∃ nk, mkSection (ls ++ [d]) = some nk ∧
             scanPending (registeredPending pend (rstrip raw)) (rstrip raw) =
               .ok (nk.2.map (fun k => (nk.1, k)), A ++ B)) ∨
           (mkSection (ls ++ [d]) = none ∧
             scanPending (registeredPending pend (rstrip raw)) (rstrip raw) =
               .error (A ++ (q, ls ++ [d]) :: B))))))) :=
  ⟨rfl, scanPending_first_match (registeredPending pend (rstrip raw)) (rstrip raw)⟩

/-- C4 counterexample: a section whose second relevant stack trace has no
in-codebase frame makes add_line raise; the sibling (well-formed) stack
trace of the same section contributes nothing, and processing of the stream
stops with the error. This falsifies the claim that such a failure is fatal
only to the one stack trace's contribution. -/
theorem c4_malformed_trace_aborts_section :
    isErrEx (runLines initState c4lines) = true ∧
    (exSt (runLines initState c4lines)).counts = [] := by
  exact ⟨rfl, rfl⟩

/-- C4 amended: a MalformedStackTraceError (the assertion of the stack trace
constructor) is fatal to the whole enclosing section and escapes add_line:
no stack trace of that section is counted, the package is untouched, and a
run stops at the raising line, ignoring the remainder of the stream. -/
theorem c4_malformed_trace_scope (st : ParserState) (raw : Line) (st2 : ParserState)
    (h : addLine st raw = .error st2) :
    st2.counts = st.counts ∧ st2.pkg = st.pkg ∧
    ∀ ls, runLines st (raw :: ls) = .error st2 := by
  cases hs : stepEmit st.pending raw with
  | error p =>
    unfold addLine at h
    rw [hs] at h
    have h2 : ({ st with pending := p } : ParserState) = st2 := Except.error.inj h
    refine ⟨by rw [← h2], by rw [← h2], ?_⟩
    intro ls
    have haddeq : addLine st raw = .error st2 := by
      unfold addLine
      rw [hs]
      exact congrArg Except.error h2
    simp [runLines, haddeq]
  | ok kp =>
    exfalso
    obtain ⟨ks, pd⟩ := kp
    unfold addLine at h
    rw [hs] at h
    exact Except.noConfusion h

theorem c4_malformed_trace_scope_witness :
    c4errSt.counts = c4preSt.counts ∧ c4errSt.pkg = c4preSt.pkg ∧
    ∀ ls, runLines c4preSt (dem8 :: ls) = .error c4errSt :=
  c4_malformed_trace_scope c4preSt dem8 c4errSt rfl

/-- C5 counterexample: with an unknown error name (wildcard begin pattern)
the begin line itself opens a candidate trace, and a following non-frame
line closes and passes the empty line group to the stack trace constructor.
This falsifies the claim that every passed group is non-empty. -/
theorem c5_empty_trace_passed :
    ([] : List Line) ∈ mkPartPassed "x".data ["a".data, "b".data] := by
  decide

/-- C5 amended: every line group that the section part segmenter closes and
hands to the stack trace constructor consists solely of lines matching the
stack frame pattern; the group closed at end of part is nonempty, but a
group closed mid-part immediately after its begin line is empty and then
fails extraction. -/
theorem c5_closed_traces_frame_lines (errorName : Line) (lines : List Line) :
    ∀ g ∈ mkPartPassed errorName lines, ∀ x ∈ g, matchStackTraceLine x = true := by
  intro g hg x hx
  exact partScan_passed_frames (beginPats errorName) lines none [] (by simp) g hg x hx

theorem c5_closed_traces_frame_lines_witness :
    matchStackTraceLine dem3 = true :=
  c5_closed_traces_frame_lines "x".data ["a".data, dem3]
    [dem3] (by decide) dem3 (by decide)

/-- C6: the extracted stack trace key is determined by the first line
matching the key pattern; every line after it is irrelevant. -/
theorem c6_key_from_first_matching_line (pre suf1 suf2 : List Line) (l k : Line)
    (hpre : ∀ x ∈ pre, matchKeyLine x = none) (hl : matchKeyLine l = some k) :
    findTraceKey (pre ++ l :: suf1) = some (maskHex k) ∧
    findTraceKey (pre ++ l :: suf1) = findTraceKey (pre ++ l :: suf2) := by
  have h1 : ∀ suf : List Line, findTraceKey (pre ++ l :: suf) = some (maskHex k) := by
    intro suf
    rw [findTraceKey_append_none pre (l :: suf) hpre]
    simp [findTraceKey, hl]
  exact ⟨h1 suf1, (h1 suf1).trans (h1 suf2).symm⟩

theorem c6_key_from_first_matching_line_witness :
    findTraceKey [dem4, dem3, dem2] = some (maskHex "foo /ros2/a".data) ∧
    findTraceKey [dem4, dem3, dem2] = findTraceKey [dem4, dem3] :=
  c6_key_from_first_matching_line [dem4] [dem2] [] dem3 "foo /ros2/a".data
    (by decide) (by decide)

/-- C7: in a data race part that has the first access header followed by
its frame lines and, later, the previous access header followed by its
frame lines, exactly two stack traces are produced, in encounter order. -/
theorem c7_data_race_two_traces (A B F1 F2 C : List Line) (r1 r2 k1 k2 : Line)
    (hA : ∀ x ∈ A, matchRaceFirst x = false)
    (hr1 : matchRaceFirst r1 = true)
    (_hF1ne : F1 ≠ []) (hF1 : ∀ x ∈ F1, matchStackTraceLine x = true)
    (hk1 : findTraceKey F1 = some k1)
    (hB : ∀ x ∈ B, matchStackTraceLine x = false ∧ matchRaceSecond x = false)
    (hr2 : matchRaceSecond r2 = true) (hr2f : matchStackTraceLine r2 = false)
    (hF2ne : F2 ≠ []) (hF2 : ∀ x ∈ F2, matchStackTraceLine x = true)
    (hk2 : findTraceKey F2 = some k2)
    (hC : C = [] ∨ matchStackTraceLine (C.headD r2) = false) :
    mkPartTraces "data race".data (A ++ r1 :: (F1 ++ (B ++ r2 :: (F2 ++ C)))) =
      some [k1, k2] := by
  have hb : beginPats "data race".data = [matchRaceFirst, matchRaceSecond] := rfl
  rw [mkPartTraces, mkPartScan, hb]
  rw [partScan_skip [matchRaceFirst, matchRaceSecond] A _ [] matchRaceFirst rfl hA]
  rw [partScan_begin [matchRaceFirst, matchRaceSecond] r1 _ [] matchRaceFirst rfl hr1]
  rw [partScan_gather [matchRaceFirst, matchRaceSecond] F1 _ [] [] hF1]
  simp only [List.nil_append]
  have hend : (partScan [matchRaceFirst, matchRaceSecond] (F2 ++ C) (some []) [k1]).2 =
      some [k1, k2] := by
    rw [partScan_gather [matchRaceFirst, matchRaceSecond] F2 _ [] [k1] hF2]
    simp only [List.nil_append]
    cases C with
    | nil =>
      have hne : F2.isEmpty = false := by
        cases F2
        · exact absurd rfl hF2ne
        · rfl
      rw [partScan_end_close _ _ _ k2 hne hk2]
      rfl
    | cons c cs =>
      have hcf : matchStackTraceLine c = false := by
        rcases hC with h | h
        · exact absurd h (by simp)
        · simpa using h
      rw [partScan_close_break [matchRaceFirst, matchRaceSecond] c cs F2 [k1] k2 hcf hk2 rfl]
      rfl
  cases B with
  | nil =>
    simp only [List.nil_append]
    rw [partScan_close [matchRaceFirst, matchRaceSecond] r2 _ F1 [] k1 matchRaceSecond
      hr2f hk1 (by decide) rfl]
    rw [if_pos hr2]
    simp only [List.nil_append]
    exact hend
  | cons b bs =>
    obtain ⟨hbf, hbr⟩ := hB b (by simp)
    simp only [List.cons_append]
    rw [partScan_close [matchRaceFirst, matchRaceSecond] b _ F1 [] k1 matchRaceSecond
      hbf hk1 (by decide) rfl]
    rw [if_neg (by simp [hbr])]
    simp only [List.nil_append]
    rw [partScan_skip [matchRaceFirst, matchRaceSecond] bs _ [k1] matchRaceSecond rfl
      (fun y hy => (hB y (by simp [hy])).2)]
    rw [partScan_begin [matchRaceFirst, matchRaceSecond] r2 _ [k1] matchRaceSecond rfl hr2]
    exact hend

theorem c7_data_race_two_traces_witness :
    mkPartTraces "data race".data
      ([] ++ dem2 :: ([dem3] ++ ([dem4] ++ dem5 :: (["    #0 0x2 in baz /ros2/c".data] ++
        ["  done".data])))) = some ["foo /ros2/a".data, "baz /ros2/c".data] :=
  c7_data_race_two_traces [] [dem4] [dem3] ["    #0 0x2 in baz /ros2/c".data]
    ["  done".data] dem2 dem5 "foo /ros2/a".data "baz /ros2/c".data
    (by decide) (by decide) (by decide) (by decide) (by decide) (by decide)
    (by decide) (by decide) (by decide) (by decide) (by decide) (Or.inr (by decide))

/-- C8: in a detected memory leaks section with a direct leak part and an
indirect leak part, exactly one relevant stack trace is produced for the
whole section, the one of the direct leak part; the indirect part yields
none. -/
theorem c8_leaks_only_direct_counted (hdr dline iline sline : Line)
    (F G : List Line) (k : Line)
    (hname : findErrorName hdr = some "detected memory leaks".data)
    (hhdrD : matchDirectLeak hdr = false)
    (hd : matchDirectLeak dline = true) (hdb : partBegin dline = true)
    (hFne : F ≠ []) (hF : ∀ x ∈ F, matchStackTraceLine x = true ∧ partBegin x = false)
    (hk : findTraceKey F = some k)
    (hib : partBegin iline = true) (hiD : matchDirectLeak iline = false)
    (hG : ∀ x ∈ G, partBegin x = false)
    (hsb : partBegin sline = true) (hsD : matchDirectLeak sline = false) :
    mkSection (hdr :: ((dline :: F) ++ ((iline :: G) ++ [sline]))) =
      some ("detected memory leaks".data, [k]) ∧
    mkPartTraces "detected memory leaks".data (iline :: G) = some [] := by
  have hbleak : beginPats "detected memory leaks".data = [matchDirectLeak] := rfl
  have hpart1 : mkPartTraces "detected memory leaks".data [hdr] = some [] := by
    rw [mkPartTraces, mkPartScan, hbleak]
    rw [partScan_all_skip [matchDirectLeak] [hdr] [] matchDirectLeak rfl
      (fun x hx => by simp at hx; rw [hx]; exact hhdrD)]
  have hpart2 : mkPartTraces "detected memory leaks".data (dline :: F) = some [k] := by
    rw [mkPartTraces, mkPartScan, hbleak]
    rw [partScan_begin [matchDirectLeak] dline F [] matchDirectLeak rfl hd]
    rw [partScan_gather_end [matchDirectLeak] F [] [] k (fun x hx => (hF x hx).1)
      (by cases F; exact absurd rfl hFne; rfl) (by simpa using hk)]
    rfl
  have hpart3 : mkPartTraces "detected memory leaks".data (iline :: G) = some [] := by
    rw [mkPartTraces, mkPartScan, hbleak]
    rw [partScan_all_skip [matchDirectLeak] (iline :: G) [] matchDirectLeak rfl ?_]
    intro x hx
    rcases List.mem_cons.1 hx with h | h
    · rw [h]; exact hiD
    · exact directLeak_needs_partBegin x (hG x h)
  have hpart4 : mkPartTraces "detected memory leaks".data [sline] = some [] := by
    rw [mkPartTraces, mkPartScan, hbleak]
    rw [partScan_all_skip [matchDirectLeak] [sline] [] matchDirectLeak rfl
      (fun x hx => by simp at hx; rw [hx]; exact hsD)]
  have hsplit : splitParts (hdr :: ((dline :: F) ++ ((iline :: G) ++ [sline]))) =
      [[hdr], dline :: F, iline :: G, [sline]] := by
    rw [splitParts, splitPartsAux_step_nil]
    simp only [List.cons_append]
    rw [splitPartsAux_begin dline [hdr] _ hdb rfl]
    rw [splitPartsAux_indent F [dline] _ (fun x hx => (hF x hx).2)]
    rw [splitPartsAux_begin iline ([dline] ++ F) _ hib (by simp)]
    rw [splitPartsAux_indent G [iline] [sline] hG]
    rw [splitPartsAux_begin sline ([iline] ++ G) [] hsb (by simp)]
    rfl
  have hkeys : sectionKeys "detected memory leaks".data
      [[hdr], dline :: F, iline :: G, [sline]] = some [k] := by
    simp only [sectionKeys, hpart1, hpart2, hpart3, hpart4]
    rfl
  refine ⟨?_, hpart3⟩
  simp only [mkSection, hname, hsplit, hkeys]

theorem c8_leaks_only_direct_counted_witness :
    mkSection ("==12==ERROR: LeakSanitizer: detected memory leaks".data ::
      (("Direct leak of 8 byte(s) in 1 object(s) allocated from:".data ::
          ["    #0 0x4 in alloc /ros2/mem".data]) ++
        (("Indirect leak of 8 byte(s) in 1 object(s) allocated from:".data ::
            ["    #1 0x5 in other /ros2/mem2".data]) ++
          ["SUMMARY: AddressSanitizer: 8 byte(s) leaked in 1 allocation(s).".data]))) =
      some ("detected memory leaks".data, ["alloc /ros2/mem".data]) ∧
    mkPartTraces "detected memory leaks".data
      ("Indirect leak of 8 byte(s) in 1 object(s) allocated from:".data ::
        ["    #1 0x5 in other /ros2/mem2".data]) = some [] :=
  c8_leaks_only_direct_counted
    "==12==ERROR: LeakSanitizer: detected memory leaks".data
    "Direct leak of 8 byte(s) in 1 object(s) allocated from:".data
    "Indirect leak of 8 byte(s) in 1 object(s) allocated from:".data
    "SUMMARY: AddressSanitizer: 8 byte(s) leaked in 1 allocation(s).".data
    ["    #0 0x4 in alloc /ros2/mem".data] ["    #1 0x5 in other /ros2/mem2".data]
    "alloc /ros2/mem".data
    (by decide) (by decide) (by decide) (by decide) (by decide) (by decide)
    (by decide) (by decide) (by decide) (by decide) (by decide) (by decide)

/-- C9 counterexample: in the header line 'WARNING: FooSanitizer: ab(cd'
the extracted error name runs past the open parenthesis because the regex
terminator is a space followed by a parenthesis, not a bare parenthesis;
the claimed cutting rule would stop at the parenthesis. -/
theorem c9_name_not_cut_at_bare_paren :
    findErrorName "WARNING: FooSanitizer: ab(cd".data = some "ab(cd".data ∧
    specNameCut "ab(cd".data = "ab".data ∧
    ¬("ab(cd".data = "ab".data) := by
  exact ⟨rfl, rfl, by decide⟩

/-- C9 amended: the error name is the substring after the last viable
occurrence of the marker 'Sanitizer: ', ending at the first of: a space
followed by an open parenthesis, a space followed by a hexadecimal address
token, or the end of the line excluding trailing whitespace (the three
terminators of errTerm). -/
theorem c9_error_name_extraction (pre name tail : Line)
    (hnm : containsSub "Sanitizer: ".data (name ++ tail) = false)
    (hne : name ≠ [])
    (hterm : errTerm tail = true)
    (hin : ∀ j, j < name.length → 0 < j → errTerm (name.drop j ++ tail) = false) :
    findErrorName (pre ++ ("Sanitizer: ".data ++ (name ++ tail))) = some name := by
  have hstep : ∀ (c : Char) (t : Line), findErrorName (c :: t) =
      match findErrorName t with
      | some n => some n
      | none =>
        match dropLit "Sanitizer: ".data (c :: t) with
        | some r => findNameIn r
        | none => none := fun c t => rfl
  induction pre with
  | nil =>
    simp only [List.nil_append]
    have hrest : findErrorName ("anitizer: ".data ++ (name ++ tail)) = none := by
      apply findErrorName_none
      have hlit : "Sanitizer: ".data = 'S' :: "anitizer: ".data := rfl
      rw [hlit, containsSub_append_head 'S' "anitizer: ".data "anitizer: ".data
        (name ++ tail) (by decide)]
      rw [← hlit]
      exact hnm
    have hshape : "Sanitizer: ".data ++ (name ++ tail) =
        'S' :: ("anitizer: ".data ++ (name ++ tail)) := rfl
    rw [hshape, hstep, hrest]
    show (match dropLit "Sanitizer: ".data ('S' :: ("anitizer: ".data ++ (name ++ tail))) with
      | some r => findNameIn r
      | none => none) = some name
    rw [← hshape, dropLit_self_append "Sanitizer: ".data (name ++ tail)]
    exact findNameIn_spec name tail hne hterm hin
  | cons c pre2 ih =>
    rw [List.cons_append, hstep, ih]

theorem c9_error_name_extraction_witness :
    findErrorName ("WARNING: Thread".data ++ ("Sanitizer: ".data ++
      ("data race".data ++ " (pid=1)".data))) = some "data race".data :=
  c9_error_name_extraction "WARNING: Thread".data "data race".data " (pid=1)".data
    (by decide) (by decide) (by decide) (by decide)

/-- C10: set_package only swaps the package used for sections finalized
afterwards: the count map, the pending buffers and the csv report are
unchanged, the csv report is a pure read of the count map, and a subsequent
add_line evolves the pending set exactly as before while tagging newly
emitted keys with the new package. -/
theorem c10_set_package_and_csv_frame (st : ParserState) (p : Option Line) :
    (setPackage st p).counts = st.counts ∧
    (setPackage st p).pending = st.pending ∧
    (setPackage st p).pkg = p ∧
    csvString (setPackage st p) = csvString st ∧
    (∀ (q : Option Line) (pd : Pending),
       csvString { counts := st.counts, pkg := q, pending := pd } = csvString st) ∧
    (∀ raw, addLine (setPackage st p) raw =
      match stepEmit st.pending raw with
      | .error pe => .error { counts := st.counts, pkg := p, pending := pe }
      | .ok kp => .ok { counts := (kp.1.map (withPkg p)).foldl bumpCount st.counts,
                        pkg := p, pending := kp.2 }) := by
  refine ⟨rfl, rfl, rfl, rfl, fun q pd => rfl, fun raw => ?_⟩
  unfold addLine setPackage
  cases stepEmit st.pending raw with
  | error pe => rfl
  | ok kp => obtain ⟨ks, pd⟩ := kp; rfl

end CSR
